import Mathlib

/-!
Shallow embedding of the MIDI decoder in
`src/app/src-tauri/src/commands/load_midi.rs` (`load_midi_from_memory`).

The decoder receives the output of the external `midly` parser: a header
timing declaration and a list of tracks, each a list of
(delta-tick, event-kind) pairs.  Machine integers are modelled as `Nat`
(with explicit `% 2 ^ 64` where the source uses `wrapping_add` on `u64`),
`f64` seconds are modelled as `ℚ`, and the `HashMap` of ongoing notes is
modelled as an association list with insert-overwrites semantics.
-/

namespace Klok

/-- `midly::MidiMessage`, restricted to the constructors the decoder
inspects; every other channel-voice message falls into `other`
(the source's `_ => {}` arm). -/
inductive MidiMessage where
  | noteOn (key : Nat) (vel : Nat)
  | noteOff (key : Nat) (vel : Nat)
  | other
deriving DecidableEq, Repr

/-- `midly::MetaMessage`, restricted to `Tempo`; every other meta message
falls into `other`. -/
inductive MetaMessage where
  | tempo (t : Nat)
  | other
deriving DecidableEq, Repr

/-- `midly::TrackEventKind`: a channel-voice message with its channel, a
meta message, or anything else (SysEx, escape). -/
inductive TrackEventKind where
  | midi (channel : Nat) (message : MidiMessage)
  | meta (m : MetaMessage)
  | other
deriving DecidableEq, Repr

/-- `midly::TrackEvent`: a delta-tick together with the event kind. -/
structure TrackEvent where
  delta : Nat
  kind : TrackEventKind
deriving DecidableEq, Repr

/-- `midly::Timing`: metrical (ticks per quarter note, a `u15`) or SMPTE
time-code (frames per second and subframe resolution). -/
inductive Timing where
  | metrical (ticks : Nat)
  | timecode (fps : Nat) (subframe : Nat)
deriving DecidableEq, Repr

/-- `midly::Smf` as consumed by the decoder: the header timing and the
per-track event lists. -/
structure Smf where
  timing : Timing
  tracks : List (List TrackEvent)
deriving DecidableEq, Repr

/-- The output record `Note` of `load_midi.rs`.  `start`, `duration` and
`velocity` are `f64` in the source, modelled as `ℚ`. -/
structure Note where
  note : Int
  start : ℚ
  duration : ℚ
  velocity : ℚ
  channel : Nat
  confidence : Option ℚ
deriving DecidableEq, Repr

/-- One track's contribution to the merged event list: running
`abs = abs.wrapping_add(delta)` on `u64`, pushing `(abs, kind)` for each
event. -/
def collectTrack (abs : Nat) : List TrackEvent → List (Nat × TrackEventKind)
  | [] => []
  | ev :: rest =>
    let abs2 := (abs + ev.delta) % 2 ^ 64
    (abs2, ev.kind) :: collectTrack abs2 rest

/-- The merged (unsorted) event list: all tracks flattened in track order,
each track's clock starting at 0. -/
def collectEvents (tracks : List (List TrackEvent)) : List (Nat × TrackEventKind) :=
  (tracks.map (collectTrack 0)).flatten

/-- `events.sort_by_key(|(t, _)| *t)` — a stable sort by absolute tick
(a stable sort for a total preorder is extensionally unique, so insertion
sort is a faithful model of the source's stable sort). -/
def sortEvents (events : List (Nat × TrackEventKind)) : List (Nat × TrackEventKind) :=
  events.insertionSort (fun a b => a.1 ≤ b.1)

/-- The mutable state threaded through the event loop: `last_tick`,
`seconds`, `tempo_micro`, the `ongoing` map keyed by (channel, note), and
the accumulated `notes`. -/
structure DecodeState where
  lastTick : Nat
  seconds : ℚ
  tempoMicro : Nat
  ongoing : List ((Nat × Nat) × (ℚ × Nat))
  notes : List Note
deriving DecidableEq, Repr

/-- `HashMap::insert`: overwrite the value when the key is present,
otherwise add the binding. -/
def insertKey (k : Nat × Nat) (v : ℚ × Nat) :
    List ((Nat × Nat) × (ℚ × Nat)) → List ((Nat × Nat) × (ℚ × Nat))
  | [] => [(k, v)]
  | (k0, v0) :: rest =>
    if k0 = k then (k, v) :: rest else (k0, v0) :: insertKey k v rest

/-- `HashMap::remove`: return the stored value and the map without the
binding, or `none` when the key is absent. -/
def removeKey (k : Nat × Nat) :
    List ((Nat × Nat) × (ℚ × Nat)) →
      Option ((ℚ × Nat) × List ((Nat × Nat) × (ℚ × Nat)))
  | [] => none
  | (k0, v0) :: rest =>
    if k0 = k then some (v0, rest)
    else
      match removeKey k rest with
      | some (v, rest2) => some (v, (k0, v0) :: rest2)
      | none => none

/-- `HashMap::get`-style lookup, used only to state invariants. -/
def lookupKey (k : Nat × Nat) :
    List ((Nat × Nat) × (ℚ × Nat)) → Option (ℚ × Nat)
  | [] => none
  | (k0, v0) :: rest => if k0 = k then some v0 else lookupKey k rest

/-- The head of the event loop: `delta_ticks = abs_tick.saturating_sub(last_tick)`
and, when non-zero, advance `seconds` by
`delta_ticks * tempo_micro / ticks_per_quarter / 1_000_000` and set
`last_tick = abs_tick`. -/
def advanceClock (ticksPerQuarter : Nat) (st : DecodeState) (absTick : Nat) :
    DecodeState :=
  let deltaTicks := absTick - st.lastTick
  if deltaTicks ≠ 0 then
    { st with
      seconds := st.seconds +
        (deltaTicks : ℚ) * (st.tempoMicro : ℚ) / (ticksPerQuarter : ℚ) / 1000000,
      lastTick := absTick }
  else st

/-- Close the (channel, key) note if it is sounding: emit a `Note` whose
duration is the current clock minus the recorded onset and whose velocity
is the one recorded at onset.  Shared by the `NoteOff` arm and the
velocity-0 `NoteOn` arm. -/
def closeNote (st : DecodeState) (ch k : Nat) : DecodeState :=
  match removeKey (ch, k) st.ongoing with
  | some ((start, vel0), rest) =>
    { st with
      ongoing := rest,
      notes := st.notes ++
        [{ note := (k : Int), start := start, duration := st.seconds - start,
           velocity := (vel0 : ℚ), channel := ch, confidence := none }] }
  | none => st

/-- One iteration of the event loop of `load_midi_from_memory`. -/
def processEvent (ticksPerQuarter : Nat) (st : DecodeState)
    (e : Nat × TrackEventKind) : DecodeState :=
  let st1 := advanceClock ticksPerQuarter st e.1
  match e.2 with
  | .meta (.tempo t) => { st1 with tempoMicro := t }
  | .meta .other => st1
  | .midi ch message =>
    match message with
    | .noteOn k v =>
      if v > 0 then
        { st1 with ongoing := insertKey (ch, k) (st1.seconds, v) st1.ongoing }
      else
        closeNote st1 ch k
    | .noteOff k _ => closeNote st1 ch k
    | .other => st1
  | .other => st1

/-- The loop's initial state: `last_tick = 0`, `seconds = 0.0`,
`tempo_micro = 500_000`, empty `ongoing` map, no notes. -/
def initState : DecodeState :=
  { lastTick := 0, seconds := 0, tempoMicro := 500000, ongoing := [], notes := [] }

/-- Run the event loop over the sorted merged events. -/
def runEvents (ticksPerQuarter : Nat) (events : List (Nat × TrackEventKind)) :
    DecodeState :=
  events.foldl (processEvent ticksPerQuarter) initState

/-- The source's final `notes.sort_by` on `start.partial_cmp` — a stable
sort by onset (on `ℚ` the comparison is total, so this is a stable sort
by `start ≤ start`). -/
def sortNotes (notes : List Note) : List Note :=
  notes.insertionSort (fun a b => a.start ≤ b.start)

/-- `load_midi_from_memory`, from the point where the `midly` parse has
succeeded: reject SMPTE timing, merge the tracks, sort by absolute tick,
run the tempo-aware clock and note reconstructor, and return the notes
sorted by onset. -/
def load_midi_from_memory (smf : Smf) : Except String (List Note) :=
  match smf.timing with
  | .timecode _ _ => .error "SMPTE time formats are not supported"
  | .metrical t =>
    let events := sortEvents (collectEvents smf.tracks)
    let final := runEvents t events
    .ok (sortNotes final.notes)

/-- The spec's phrase "running sum of delta-ticks within its own track":
the `i`-th entry is the exact (non-wrapping) sum of the first `i + 1`
deltas, offset by `acc`.  Used to compare the source's wrapping
accumulation against the specified running sum. -/
def specRunningTicks (acc : Nat) : List TrackEvent → List Nat
  | [] => []
  | ev :: rest => (acc + ev.delta) :: specRunningTicks (acc + ev.delta) rest

/-- Velocity-range validity of one event kind, as guaranteed by the
`midly` parser (`vel` is a `u7`). -/
def kindVelValid : TrackEventKind → Prop
  | .midi _ (.noteOn _ v) => v ≤ 127
  | .midi _ (.noteOff _ v) => v ≤ 127
  | _ => True

/-- Clock/onset invariant threaded through the event loop: the clock is
non-negative, every ongoing onset lies between 0 and the clock, and every
completed note has non-negative onset and duration. -/
def ClockInv (st : DecodeState) : Prop :=
  0 ≤ st.seconds
  ∧ (∀ e ∈ st.ongoing, 0 ≤ e.2.1 ∧ e.2.1 ≤ st.seconds)
  ∧ (∀ n ∈ st.notes, 0 ≤ n.start ∧ 0 ≤ n.duration)

/-- Velocity invariant threaded through the event loop: ongoing notes
carry velocities in 1..=127, completed notes likewise. -/
def VelInv (st : DecodeState) : Prop :=
  (∀ e ∈ st.ongoing, 0 < e.2.2 ∧ e.2.2 ≤ 127)
  ∧ (∀ n ∈ st.notes, 1 ≤ n.velocity ∧ n.velocity ≤ 127)

/-! ### Helper lemmas -/

/-- An invariant preserved by every step is preserved by the fold. -/
theorem foldl_inv {α σ : Type _} {P : σ → Prop} {f : σ → α → σ} :
    ∀ (l : List α) (s : σ), (∀ s a, a ∈ l → P s → P (f s a)) → P s →
      P (l.foldl f s)
  | [], _, _, hs => hs
  | a :: l, s, h, hs =>
    foldl_inv l (f s a) (fun s b hb => h s b (List.mem_cons_of_mem _ hb))
      (h s a (List.mem_cons_self _ _) hs)

/-- Stability of `insertionSort`, in filter form: the subsequence of
elements matching a predicate that forces mutual `r`-comparability is
untouched by the sort. -/
theorem filter_insertionSort_eq {α : Type _} {r : α → α → Prop} [DecidableRel r]
    (p : α → Bool) (l : List α) (hp : ∀ a b, p a → p b → r a b) :
    (l.insertionSort r).filter p = l.filter p := by
  have hpair : (l.filter p).Pairwise r :=
    List.pairwise_of_forall_mem_list fun a ha b hb =>
      hp a b (List.of_mem_filter ha) (List.of_mem_filter hb)
  have hsub : List.Sublist (l.filter p) (l.insertionSort r) :=
    List.sublist_insertionSort hpair (List.filter_sublist l)
  have hsub2 : List.Sublist (l.filter p) ((l.insertionSort r).filter p) := by
    simpa only [List.filter_filter, Bool.and_self] using hsub.filter p
  have hperm : List.Perm ((l.insertionSort r).filter p) (l.filter p) :=
    (List.perm_insertionSort r l).filter p
  exact (hsub2.eq_of_length hperm.length_eq.symm).symm

/-! ### Claim theorems -/

/-- C6: an input whose header declares SMPTE (absolute-time-code,
frames-per-second) timing is rejected with the unsupported-timing error
before any event processing, and no notes are produced. -/
theorem C6_unsupported_timing (fps subframe : Nat) (tracks : List (List TrackEvent)) :
    load_midi_from_memory { timing := .timecode fps subframe, tracks := tracks }
      = .error "SMPTE time formats are not supported" := rfl

/-- C9: decoding is deterministic — identical parsed inputs produce
identical results (the decoder is a pure function of its input, with no
global or static mutable state). -/
theorem C9_deterministic (smf1 smf2 : Smf) (h : smf1 = smf2) :
    load_midi_from_memory smf1 = load_midi_from_memory smf2 := by rw [h]

theorem C9_deterministic_witness :
    load_midi_from_memory { timing := .metrical 480, tracks := [] }
      = load_midi_from_memory { timing := .metrical 480, tracks := [] } :=
  C9_deterministic { timing := .metrical 480, tracks := [] }
    { timing := .metrical 480, tracks := [] } rfl

/-- C2: the clock starts at tempo 500000 us/quarter, advances the running
seconds by `delta * tempo_micro / ticks_per_quarter / 1000000` for each
event, and applies a tempo change only after the time advance for its own
tick; the spec's single-note tempo example yields one Note with onset and
duration `T / 1000000` seconds. -/
theorem C2_tempo_clock :
    initState.tempoMicro = 500000
    ∧ (∀ tpq st abs t,
        (processEvent tpq st (abs, .meta (.tempo t))).tempoMicro = t
        ∧ (processEvent tpq st (abs, .meta (.tempo t))).seconds
            = st.seconds + ((abs - st.lastTick : Nat) : ℚ) * (st.tempoMicro : ℚ)
                / (tpq : ℚ) / 1000000)
    ∧ (∀ tpq T ch k v, 0 < tpq → tpq < 2 ^ 15 → 0 < v →
        load_midi_from_memory
          { timing := .metrical tpq,
            tracks := [[⟨0, .meta (.tempo T)⟩, ⟨tpq, .midi ch (.noteOn k v)⟩,
                        ⟨tpq, .midi ch (.noteOff k 0)⟩]] }
          = .ok [{ note := (k : Int), start := (T : ℚ) / 1000000,
                   duration := (T : ℚ) / 1000000, velocity := (v : ℚ), channel := ch,
                   confidence := none }]) := by
  refine ⟨rfl, fun tpq st abs t => ?_, fun tpq T ch k v h1 h2 h3 => ?_⟩
  · simp only [processEvent, advanceClock]
    by_cases h : abs - st.lastTick ≠ 0
    · simp [h]
    · simp only [ne_eq, not_not] at h
      simp [h]
  · have hp : (2:Nat) ^ 64 = 18446744073709551616 := by norm_num
    have hq : (2:Nat) ^ 15 = 32768 := by norm_num
    rw [hq] at h2
    have e0 : (0 + 0) % (2:Nat) ^ 64 = 0 := by rw [hp]
    have e1 : (0 + tpq) % (2:Nat) ^ 64 = tpq := by rw [hp]; omega
    have e2 : (tpq + tpq) % (2:Nat) ^ 64 = tpq + tpq := by rw [hp]; omega
    have hcoll : collectEvents
        [[⟨0, .meta (.tempo T)⟩, ⟨tpq, .midi ch (.noteOn k v)⟩, ⟨tpq, .midi ch (.noteOff k 0)⟩]]
        = [(0, .meta (.tempo T)), (tpq, .midi ch (.noteOn k v)),
           (tpq + tpq, .midi ch (.noteOff k 0))] := by
      simp only [collectEvents, List.map, List.flatten, collectTrack, List.append_nil]
      rw [e0, e1, e2]
    have hsort : sortEvents
        [(0, .meta (.tempo T)), (tpq, .midi ch (.noteOn k v)),
         (tpq + tpq, .midi ch (.noteOff k 0))]
        = [(0, .meta (.tempo T)), (tpq, .midi ch (.noteOn k v)),
           (tpq + tpq, .midi ch (.noteOff k 0))] :=
      List.Sorted.insertionSort_eq (by simp [List.sorted_cons])
    have htq : (tpq:ℚ) ≠ 0 := Nat.cast_ne_zero.mpr (by omega)
    have harith : ∀ s : ℚ, s + (tpq:ℚ) * (T:ℚ) / (tpq:ℚ) / 1000000 = s + (T:ℚ)/1000000 := by
      intro s
      rw [mul_comm, mul_div_assoc, div_self htq, mul_one]
    have hst1 : processEvent tpq initState (0, .meta (.tempo T))
        = { lastTick := 0, seconds := 0, tempoMicro := T, ongoing := [], notes := [] } := by
      simp [processEvent, advanceClock, initState]
    have hst2 : processEvent tpq
        { lastTick := 0, seconds := 0, tempoMicro := T, ongoing := [], notes := [] }
        (tpq, .midi ch (.noteOn k v))
        = { lastTick := tpq, seconds := (T:ℚ)/1000000, tempoMicro := T,
            ongoing := [((ch, k), ((T:ℚ)/1000000, v))], notes := [] } := by
      simp only [processEvent, advanceClock, Nat.sub_zero]
      rw [if_pos (by omega : tpq ≠ 0)]
      simp only [zero_add, harith, h3, if_pos, insertKey]
    have hst3 : processEvent tpq
        { lastTick := tpq, seconds := (T:ℚ)/1000000, tempoMicro := T,
          ongoing := [((ch, k), ((T:ℚ)/1000000, v))], notes := [] }
        (tpq + tpq, .midi ch (.noteOff k 0))
        = { lastTick := tpq + tpq, seconds := (T:ℚ)/1000000 + (T:ℚ)/1000000,
            tempoMicro := T, ongoing := [],
            notes := [{ note := (k : Int), start := (T:ℚ)/1000000,
                        duration := (T:ℚ)/1000000, velocity := (v:ℚ), channel := ch,
                        confidence := none }] } := by
      simp only [processEvent, advanceClock, Nat.add_sub_cancel]
      rw [if_pos (by omega : tpq ≠ 0)]
      simp only [harith, closeNote, removeKey, if_pos rfl]
      simp [Note.mk.injEq]
    rw [load_midi_from_memory]
    simp only [hcoll, hsort, runEvents, List.foldl, hst1, hst2, hst3]
    simp [sortNotes]


theorem C2_tempo_clock_witness :
    load_midi_from_memory
      { timing := .metrical 480,
        tracks := [[⟨0, .meta (.tempo 600000)⟩, ⟨480, .midi 0 (.noteOn 60 64)⟩,
                    ⟨480, .midi 0 (.noteOff 60 0)⟩]] }
      = .ok [{ note := ((60 : Nat) : Int), start := ((600000 : Nat) : ℚ) / 1000000,
               duration := ((600000 : Nat) : ℚ) / 1000000, velocity := ((64 : Nat) : ℚ),
               channel := 0, confidence := none }] :=
  C2_tempo_clock.2.2 480 600000 0 60 64 (by norm_num) (by norm_num) (by norm_num)

theorem lookupKey_insertKey (k : Nat × Nat) (v : ℚ × Nat) :
    ∀ l, lookupKey k (insertKey k v l) = some v
  | [] => by simp [insertKey, lookupKey]
  | (k0, v0) :: rest => by
    by_cases h : k0 = k
    · simp [insertKey, lookupKey, h]
    · simp [insertKey, lookupKey, h, lookupKey_insertKey k v rest]

theorem mem_insertKey (k : Nat × Nat) (v : ℚ × Nat) :
    ∀ l e, e ∈ insertKey k v l → e = (k, v) ∨ e ∈ l
  | [], e, h => Or.inl (by simpa [insertKey] using h)
  | (k0, v0) :: rest, e, h => by
    by_cases hk : k0 = k
    · rcases (by simpa [insertKey, hk] using h : e = (k, v) ∨ e ∈ rest) with h1 | h1
      · exact Or.inl h1
      · exact Or.inr (List.mem_cons_of_mem _ h1)
    · rcases (by simpa [insertKey, hk] using h : e = (k0, v0) ∨ e ∈ insertKey k v rest) with h1 | h1
      · exact Or.inr (by simp [h1])
      · rcases mem_insertKey k v rest e h1 with h2 | h2
        · exact Or.inl h2
        · exact Or.inr (List.mem_cons_of_mem _ h2)

theorem keys_insertKey_nodup (k : Nat × Nat) (v : ℚ × Nat) :
    ∀ l, ((l : List ((Nat × Nat) × (ℚ × Nat))).map Prod.fst).Nodup →
      ((insertKey k v l).map Prod.fst).Nodup
  | [], _ => by simp [insertKey]
  | (k0, v0) :: rest, h => by
    simp only [List.map_cons, List.nodup_cons] at h
    by_cases hk : k0 = k
    · subst hk
      simpa [insertKey] using h
    · simp only [insertKey, if_neg hk, List.map_cons, List.nodup_cons]
      refine ⟨?_, keys_insertKey_nodup k v rest h.2⟩
      intro hmem
      rcases List.mem_map.mp hmem with ⟨e, he, hfst⟩
      rcases mem_insertKey k v rest e he with h2 | h2
      · exact hk (by rw [h2] at hfst; exact hfst.symm)
      · exact h.1 (List.mem_map.mpr ⟨e, h2, hfst⟩)

theorem removeKey_sublist (k : Nat × Nat) :
    ∀ l v rest, removeKey k l = some (v, rest) → List.Sublist rest l
  | [], v, rest, h => by simp [removeKey] at h
  | (k0, v0) :: l, v, rest, h => by
    by_cases hk : k0 = k
    · simp only [removeKey, if_pos hk] at h
      obtain ⟨rfl, rfl⟩ := (by simpa using h : v0 = v ∧ l = rest)
      exact (List.sublist_cons_self _ _)
    · simp only [removeKey, if_neg hk] at h
      cases hrec : removeKey k l with
      | none => rw [hrec] at h; simp at h
      | some p =>
        rw [hrec] at h
        obtain ⟨v1, rest1⟩ := p
        simp only [Option.some.injEq, Prod.mk.injEq] at h
        obtain ⟨rfl, rfl⟩ := h
        exact List.Sublist.cons₂ _ (removeKey_sublist k l v1 rest1 hrec)

theorem closeNote_ongoing_nodup (st : DecodeState) (ch k : Nat)
    (h : (st.ongoing.map Prod.fst).Nodup) :
    ((closeNote st ch k).ongoing.map Prod.fst).Nodup := by
  rw [closeNote]
  cases hrem : removeKey (ch, k) st.ongoing with
  | none => exact h
  | some p =>
    obtain ⟨⟨start, vel0⟩, rest⟩ := p
    exact ((removeKey_sublist _ _ _ _ hrem).map Prod.fst).nodup h

theorem processEvent_ongoing_nodup (tpq : Nat) (st : DecodeState)
    (e : Nat × TrackEventKind) (h : (st.ongoing.map Prod.fst).Nodup) :
    ((processEvent tpq st e).ongoing.map Prod.fst).Nodup := by
  have hadv : ((advanceClock tpq st e.1).ongoing.map Prod.fst).Nodup := by
    rw [advanceClock]
    by_cases hd : e.1 - st.lastTick ≠ 0 <;> simp [hd, h]
  rw [processEvent]
  rcases e with ⟨abs, kind⟩
  match kind with
  | .meta (.tempo t) => exact hadv
  | .meta .other => exact hadv
  | .other => exact hadv
  | .midi ch (.noteOn k v) =>
    by_cases hv : v > 0
    · simp only [hv, if_pos]
      exact keys_insertKey_nodup _ _ _ hadv
    · simp only [hv, if_neg, if_false]
      exact closeNote_ongoing_nodup _ ch k hadv
  | .midi ch (.noteOff k v) => exact closeNote_ongoing_nodup _ ch k hadv
  | .midi ch .other => exact hadv

/-- C7: a NoteOn with velocity > 0 for an already-sounding key overwrites
the recorded onset and velocity with the new event's values, emits no
Note, and the ongoing mapping holds at most one entry per (channel, pitch)
key at any time. -/
theorem C7_retrigger :
    (∀ tpq st abs ch k v, 0 < v →
        processEvent tpq st (abs, .midi ch (.noteOn k v))
          = { advanceClock tpq st abs with
              ongoing := insertKey (ch, k) ((advanceClock tpq st abs).seconds, v)
                (advanceClock tpq st abs).ongoing }
        ∧ (processEvent tpq st (abs, .midi ch (.noteOn k v))).notes
            = (advanceClock tpq st abs).notes
        ∧ lookupKey (ch, k) (processEvent tpq st (abs, .midi ch (.noteOn k v))).ongoing
            = some ((advanceClock tpq st abs).seconds, v))
    ∧ (∀ tpq events, ((runEvents tpq events).ongoing.map Prod.fst).Nodup) := by
  constructor
  · intro tpq st abs ch k v hv
    have h1 : processEvent tpq st (abs, .midi ch (.noteOn k v))
        = { advanceClock tpq st abs with
            ongoing := insertKey (ch, k) ((advanceClock tpq st abs).seconds, v)
              (advanceClock tpq st abs).ongoing } := by
      simp [processEvent, hv]
    refine ⟨h1, by rw [h1], by rw [h1]; exact lookupKey_insertKey _ _ _⟩
  · intro tpq events
    exact foldl_inv (P := fun st : DecodeState => (st.ongoing.map Prod.fst).Nodup)
      events initState
      (fun st e _ h => processEvent_ongoing_nodup tpq st e h) (by simp [initState])

/-- C8: a NoteOff (any velocity) or zero-velocity NoteOn for a key that is
not sounding is silently ignored — no error, no emitted Note, the state
unchanged apart from the unconditional clock advance (identical to
processing an ignored event) — and the decode still succeeds with the
other matched notes. -/
theorem C8_orphan_ignored :
    (∀ tpq st abs ch k v,
        removeKey (ch, k) (advanceClock tpq st abs).ongoing = none →
        processEvent tpq st (abs, .midi ch (.noteOff k v)) = advanceClock tpq st abs
        ∧ processEvent tpq st (abs, .midi ch (.noteOn k 0)) = advanceClock tpq st abs
        ∧ processEvent tpq st (abs, .midi ch (.noteOff k v))
            = processEvent tpq st (abs, .other))
    ∧ load_midi_from_memory
        { timing := .metrical 480,
          tracks := [[⟨0, .midi 0 (.noteOff 99 0)⟩, ⟨0, .midi 0 (.noteOn 60 64)⟩,
                      ⟨480, .midi 0 (.noteOff 60 0)⟩]] }
        = .ok [{ note := ((60 : Nat) : Int), start := 0, duration := 1/2, velocity := 64,
                 channel := 0, confidence := none }] := by
  constructor
  · intro tpq st abs ch k v h
    refine ⟨?_, ?_, ?_⟩
    · simp [processEvent, closeNote, h]
    · simp [processEvent, closeNote, h]
    · simp [processEvent, closeNote, h]
  · norm_num [load_midi_from_memory, sortEvents, collectEvents, collectTrack, runEvents,
      processEvent, advanceClock, closeNote, removeKey, insertKey, initState, sortNotes,
      List.insertionSort, List.orderedInsert]

theorem removeKey_mem (k : Nat × Nat) :
    ∀ l v rest, removeKey k l = some (v, rest) → (k, v) ∈ l
  | [], v, rest, h => by simp [removeKey] at h
  | (k0, v0) :: l, v, rest, h => by
    by_cases hk : k0 = k
    · simp only [removeKey, if_pos hk] at h
      obtain ⟨rfl, -⟩ := (by simpa using h : v0 = v ∧ l = rest)
      simp [hk]
    · simp only [removeKey, if_neg hk] at h
      cases hrec : removeKey k l with
      | none => rw [hrec] at h; simp at h
      | some p =>
        rw [hrec] at h
        obtain ⟨v1, rest1⟩ := p
        simp only [Option.some.injEq, Prod.mk.injEq] at h
        obtain ⟨rfl, -⟩ := h
        exact List.mem_cons_of_mem _ (removeKey_mem k l v1 rest1 hrec)

theorem closeNote_seconds (st : DecodeState) (ch k : Nat) :
    (closeNote st ch k).seconds = st.seconds := by
  rw [closeNote]
  cases removeKey (ch, k) st.ongoing with
  | none => rfl
  | some p => obtain ⟨⟨s, v⟩, r⟩ := p; rfl

theorem processEvent_seconds (tpq : Nat) (st : DecodeState) (e : Nat × TrackEventKind) :
    (processEvent tpq st e).seconds = (advanceClock tpq st e.1).seconds := by
  rw [processEvent]
  rcases e with ⟨abs, kind⟩
  match kind with
  | .meta (.tempo t) => rfl
  | .meta .other => rfl
  | .other => rfl
  | .midi ch (.noteOn k v) =>
    by_cases hv : v > 0
    · simp [hv]
    · simp [hv, closeNote_seconds]
  | .midi ch (.noteOff k v) => exact closeNote_seconds _ ch k
  | .midi ch .other => rfl

theorem advanceClock_seconds_le (tpq : Nat) (st : DecodeState) (abs : Nat) :
    st.seconds ≤ (advanceClock tpq st abs).seconds := by
  simp only [advanceClock]
  by_cases hd : abs - st.lastTick ≠ 0
  · rw [if_pos hd]
    have : (0:ℚ) ≤ ((abs - st.lastTick : Nat) : ℚ) * (st.tempoMicro : ℚ)
        / (tpq : ℚ) / 1000000 := by positivity
    linarith
  · rw [if_neg hd]

theorem advanceClock_clockInv (tpq : Nat) (st : DecodeState) (abs : Nat)
    (h : ClockInv st) : ClockInv (advanceClock tpq st abs) := by
  obtain ⟨h1, h2, h3⟩ := h
  have hle := advanceClock_seconds_le tpq st abs
  have hong : (advanceClock tpq st abs).ongoing = st.ongoing := by
    simp only [advanceClock]; by_cases hd : abs - st.lastTick ≠ 0 <;> simp [hd]
  have hnotes : (advanceClock tpq st abs).notes = st.notes := by
    simp only [advanceClock]; by_cases hd : abs - st.lastTick ≠ 0 <;> simp [hd]
  refine ⟨le_trans h1 hle, ?_, ?_⟩
  · rw [hong]
    exact fun e he => ⟨(h2 e he).1, le_trans (h2 e he).2 hle⟩
  · rw [hnotes]; exact h3

theorem closeNote_clockInv (st : DecodeState) (ch k : Nat)
    (h : ClockInv st) : ClockInv (closeNote st ch k) := by
  obtain ⟨h1, h2, h3⟩ := h
  rw [closeNote]
  cases hrem : removeKey (ch, k) st.ongoing with
  | none => exact ⟨h1, h2, h3⟩
  | some p =>
    obtain ⟨⟨start, vel0⟩, rest⟩ := p
    have hmem : ((ch, k), (start, vel0)) ∈ st.ongoing := removeKey_mem _ _ _ _ hrem
    have hsub := removeKey_sublist _ _ _ _ hrem
    refine ⟨h1, fun e he => h2 e (hsub.mem he), fun n hn => ?_⟩
    rcases List.mem_append.mp hn with hn | hn
    · exact h3 n hn
    · have hne : n = { note := (k : Int), start := start, duration := st.seconds - start,
                       velocity := (vel0 : ℚ), channel := ch, confidence := none } := by
        simpa using hn
      subst hne
      have hse := h2 _ hmem
      exact ⟨hse.1, by simpa using sub_nonneg.mpr hse.2⟩

theorem processEvent_clockInv (tpq : Nat) (st : DecodeState)
    (e : Nat × TrackEventKind) (h : ClockInv st) : ClockInv (processEvent tpq st e) := by
  have hadv := advanceClock_clockInv tpq st e.1 h
  rw [processEvent]
  rcases e with ⟨abs, kind⟩
  match kind with
  | .meta (.tempo t) => exact ⟨hadv.1, hadv.2.1, hadv.2.2⟩
  | .meta .other => exact hadv
  | .other => exact hadv
  | .midi ch (.noteOn k v) =>
    by_cases hv : v > 0
    · simp only [hv, if_pos]
      obtain ⟨h1, h2, h3⟩ := hadv
      refine ⟨h1, fun e he => ?_, h3⟩
      rcases mem_insertKey _ _ _ _ he with he | he
      · subst he; exact ⟨h1, le_refl _⟩
      · exact h2 e he
    · simp only [hv, if_neg, if_false]
      exact closeNote_clockInv _ ch k hadv
  | .midi ch (.noteOff k v) => exact closeNote_clockInv _ ch k hadv
  | .midi ch .other => exact hadv

/-- C1: the running seconds counter never decreases across an event, every
ongoing entry records an onset between 0 and the current clock, and on
every successful decode every returned Note has onset ≥ 0 and
duration ≥ 0. -/
theorem C1_nonneg :
    (∀ tpq st e, st.seconds ≤ (processEvent tpq st e).seconds)
    ∧ (∀ tpq events, ∀ e ∈ (runEvents tpq events).ongoing,
        0 ≤ e.2.1 ∧ e.2.1 ≤ (runEvents tpq events).seconds)
    ∧ (∀ smf ns, load_midi_from_memory smf = .ok ns →
        ∀ n ∈ ns, 0 ≤ n.start ∧ 0 ≤ n.duration) := by
  have hinit : ClockInv initState := by
    refine ⟨le_refl _, ?_, ?_⟩ <;> simp [initState]
  have hrun : ∀ tpq events, ClockInv (runEvents tpq events) := fun tpq events =>
    foldl_inv events initState (fun st e _ h => processEvent_clockInv tpq st e h) hinit
  refine ⟨?_, ?_, ?_⟩
  · intro tpq st e
    rw [processEvent_seconds]
    exact advanceClock_seconds_le tpq st e.1
  · exact fun tpq events e he => (hrun tpq events).2.1 e he
  · intro smf ns h n hn
    rcases smf with ⟨timing, tracks⟩
    cases timing with
    | timecode fps sub => simp [load_midi_from_memory] at h
    | metrical t =>
      rw [load_midi_from_memory] at h
      simp only [Except.ok.injEq] at h
      subst h
      have hn2 : n ∈ (runEvents t (sortEvents (collectEvents tracks))).notes := by
        simpa [sortNotes] using hn
      have hcc := (hrun t (sortEvents (collectEvents tracks))).2.2 n hn2
      exact ⟨hcc.1, hcc.2⟩

theorem mem_collectTrack (e : Nat × TrackEventKind) :
    ∀ (abs : Nat) (track : List TrackEvent), e ∈ collectTrack abs track →
      ∃ ev ∈ track, e.2 = ev.kind
  | abs, [], h => by simp [collectTrack] at h
  | abs, ev :: rest, h => by
    rcases (by simpa [collectTrack] using h :
        e = ((abs + ev.delta) % 2 ^ 64, ev.kind) ∨
          e ∈ collectTrack ((abs + ev.delta) % 2 ^ 64) rest) with h1 | h1
    · exact ⟨ev, List.mem_cons_self _ _, by rw [h1]⟩
    · obtain ⟨ev2, hev2, hkind⟩ := mem_collectTrack e _ rest h1
      exact ⟨ev2, List.mem_cons_of_mem _ hev2, hkind⟩

theorem mem_collectEvents (e : Nat × TrackEventKind) (tracks : List (List TrackEvent))
    (h : e ∈ collectEvents tracks) : ∃ track ∈ tracks, ∃ ev ∈ track, e.2 = ev.kind := by
  rw [collectEvents] at h
  rcases List.mem_flatten.mp h with ⟨l, hl, he⟩
  rcases List.mem_map.mp hl with ⟨track, htrack, rfl⟩
  exact ⟨track, htrack, mem_collectTrack e 0 track he⟩

theorem advanceClock_ongoing (tpq : Nat) (st : DecodeState) (abs : Nat) :
    (advanceClock tpq st abs).ongoing = st.ongoing := by
  simp only [advanceClock]
  by_cases hd : abs - st.lastTick ≠ 0
  · rw [if_pos hd]
  · rw [if_neg hd]

theorem advanceClock_notes (tpq : Nat) (st : DecodeState) (abs : Nat) :
    (advanceClock tpq st abs).notes = st.notes := by
  simp only [advanceClock]
  by_cases hd : abs - st.lastTick ≠ 0
  · rw [if_pos hd]
  · rw [if_neg hd]

theorem closeNote_velInv (st : DecodeState) (ch k : Nat)
    (h : VelInv st) : VelInv (closeNote st ch k) := by
  obtain ⟨h1, h2⟩ := h
  rw [closeNote]
  cases hrem : removeKey (ch, k) st.ongoing with
  | none => exact ⟨h1, h2⟩
  | some p =>
    obtain ⟨⟨start, vel0⟩, rest⟩ := p
    have hmem : ((ch, k), (start, vel0)) ∈ st.ongoing := removeKey_mem _ _ _ _ hrem
    have hsub := removeKey_sublist _ _ _ _ hrem
    refine ⟨fun e he => h1 e (hsub.mem he), fun n hn => ?_⟩
    rcases List.mem_append.mp hn with hn | hn
    · exact h2 n hn
    · have hne : n = { note := (k : Int), start := start, duration := st.seconds - start,
                       velocity := (vel0 : ℚ), channel := ch, confidence := none } := by
        simpa using hn
      subst hne
      have hv := h1 _ hmem
      constructor
      · simpa using Nat.one_le_cast.mpr hv.1
      · simpa using (by exact_mod_cast hv.2 : (vel0 : ℚ) ≤ 127)

theorem processEvent_velInv (tpq : Nat) (st : DecodeState)
    (e : Nat × TrackEventKind) (hvalid : kindVelValid e.2) (h : VelInv st) :
    VelInv (processEvent tpq st e) := by
  have hadv : VelInv (advanceClock tpq st e.1) := by
    rw [VelInv, advanceClock_ongoing, advanceClock_notes]
    exact h
  rw [processEvent]
  rcases e with ⟨abs, kind⟩
  match kind with
  | .meta (.tempo t) => exact hadv
  | .meta .other => exact hadv
  | .other => exact hadv
  | .midi ch (.noteOn k v) =>
    by_cases hv : v > 0
    · simp only [hv, if_pos]
      obtain ⟨h1, h2⟩ := hadv
      refine ⟨fun e he => ?_, h2⟩
      rcases mem_insertKey _ _ _ _ he with he | he
      · subst he
        exact ⟨hv, by exact hvalid⟩
      · exact h1 e he
    · simp only [hv, if_neg, if_false]
      exact closeNote_velInv _ ch k hadv
  | .midi ch (.noteOff k v) => exact closeNote_velInv _ ch k hadv
  | .midi ch .other => exact hadv

/-- C10: for inputs whose NoteOn/NoteOff velocities are in the parser's
u7 range, every returned Note carries a strictly positive velocity in
1..=127 — never 0, even when closed by a zero-velocity NoteOn. -/
theorem C10_velocity_range (smf : Smf) (ns : List Note)
    (hvalid : ∀ track ∈ smf.tracks, ∀ ev ∈ track, kindVelValid ev.kind)
    (h : load_midi_from_memory smf = .ok ns) :
    ∀ n ∈ ns, 1 ≤ n.velocity ∧ n.velocity ≤ 127 := by
  intro n hn
  rcases smf with ⟨timing, tracks⟩
  cases timing with
  | timecode fps sub => simp [load_midi_from_memory] at h
  | metrical t =>
    rw [load_midi_from_memory] at h
    simp only [Except.ok.injEq] at h
    subst h
    have hn2 : n ∈ (runEvents t (sortEvents (collectEvents tracks))).notes := by
      simpa [sortNotes] using hn
    have hrun : VelInv (runEvents t (sortEvents (collectEvents tracks))) := by
      refine foldl_inv _ initState (fun st e he hP => ?_) ⟨by simp [initState], by simp [initState]⟩
      have he2 : e ∈ collectEvents tracks := by
        simpa [sortEvents] using he
      obtain ⟨track, htrack, ev, hev, hkind⟩ := mem_collectEvents e tracks he2
      exact processEvent_velInv t st e (by rw [hkind]; exact hvalid track htrack ev hev) hP
    exact hrun.2 n hn2

/-- C3: each merged event's absolute tick is the running sum of deltas
within its own track (exactly, whenever that sum does not overflow u64);
the merged sequence is sorted by absolute tick ascending; and the sort is
stable — events sharing a tick keep the order the merge encountered them
(track order, then within-track order, i.e. their order in
`collectEvents`). -/
theorem C3_merge_ticks_sorted_stable :
    (∀ acc track, acc + (track.map TrackEvent.delta).sum < 2 ^ 64 →
        (collectTrack acc track).map Prod.fst = specRunningTicks acc track)
    ∧ (∀ events, List.Pairwise (fun a b : Nat × TrackEventKind => a.1 ≤ b.1)
        (sortEvents events))
    ∧ (∀ tracks t, (sortEvents (collectEvents tracks)).filter (fun e => e.1 == t)
        = (collectEvents tracks).filter (fun e => e.1 == t)) := by
  refine ⟨?_, ?_, ?_⟩
  · intro acc track
    induction track generalizing acc with
    | nil => intro h; simp [collectTrack, specRunningTicks]
    | cons ev rest ih =>
      intro h
      simp only [List.map_cons, List.sum_cons] at h
      have hmod : (acc + ev.delta) % 2 ^ 64 = acc + ev.delta :=
        Nat.mod_eq_of_lt (by omega)
      simp only [collectTrack, specRunningTicks, List.map_cons, hmod]
      exact congrArg _ (ih (acc + ev.delta) (by omega))
  · intro events
    haveI : IsTotal (Nat × TrackEventKind) (fun a b => a.1 ≤ b.1) :=
      ⟨fun a b => Nat.le_total a.1 b.1⟩
    haveI : IsTrans (Nat × TrackEventKind) (fun a b => a.1 ≤ b.1) :=
      ⟨fun a b c => Nat.le_trans⟩
    exact List.sorted_insertionSort _ events
  · intro tracks t
    rw [sortEvents]
    exact filter_insertionSort_eq _ _ (fun a b ha hb => by
      have ha2 : a.1 = t := by simpa using ha
      have hb2 : b.1 = t := by simpa using hb
      simp [ha2, hb2])

/-- C4: every successfully returned note list is sorted by onset
ascending, and stably so: notes with equal onsets appear in the order
they were completed (their order in the reconstructor's completion
list). -/
theorem C4_output_sorted (smf : Smf) (ns : List Note)
    (h : load_midi_from_memory smf = .ok ns) :
    List.Pairwise (fun a b : Note => a.start ≤ b.start) ns
    ∧ ∀ tpq, smf.timing = .metrical tpq →
        ns = sortNotes (runEvents tpq (sortEvents (collectEvents smf.tracks))).notes
        ∧ ∀ q : ℚ, ns.filter (fun n => decide (n.start = q))
            = (runEvents tpq (sortEvents (collectEvents smf.tracks))).notes.filter
                (fun n => decide (n.start = q)) := by
  rcases smf with ⟨timing, tracks⟩
  cases timing with
  | timecode fps sub => simp [load_midi_from_memory] at h
  | metrical t =>
    rw [load_midi_from_memory] at h
    simp only [Except.ok.injEq] at h
    subst h
    constructor
    · haveI : IsTotal Note (fun a b : Note => a.start ≤ b.start) :=
        ⟨fun a b => le_total a.start b.start⟩
      haveI : IsTrans Note (fun a b : Note => a.start ≤ b.start) :=
        ⟨fun a b c => le_trans⟩
      exact List.sorted_insertionSort _ _
    · intro tpq htpq
      obtain rfl : t = tpq := by simpa using htpq
      refine ⟨rfl, fun q => ?_⟩
      rw [sortNotes]
      exact filter_insertionSort_eq _ _ (fun a b ha hb => by
        have ha2 : a.start = q := of_decide_eq_true ha
        have hb2 : b.start = q := of_decide_eq_true hb
        simp [ha2, hb2])

/-- C5: a sounding key is closed by a NoteOff (whatever its velocity
payload — the behaviour is identical for every payload, and identical to
a zero-velocity NoteOn); exactly one Note is appended whose duration is
the current clock minus the recorded onset and whose velocity is the one
recorded at onset; the spec's same-tick NoteOn 64 / NoteOn 0 example
yields one Note of duration 0. -/
theorem C5_close_matching :
    (∀ tpq st abs ch k v start vel0 rest,
        removeKey (ch, k) (advanceClock tpq st abs).ongoing = some ((start, vel0), rest) →
        processEvent tpq st (abs, .midi ch (.noteOff k v))
            = { advanceClock tpq st abs with
                ongoing := rest,
                notes := (advanceClock tpq st abs).notes ++
                  [{ note := (k : Int), start := start,
                     duration := (advanceClock tpq st abs).seconds - start,
                     velocity := (vel0 : ℚ), channel := ch, confidence := none }] }
          ∧ processEvent tpq st (abs, .midi ch (.noteOn k 0))
              = processEvent tpq st (abs, .midi ch (.noteOff k v)))
    ∧ (∀ ch k,
        load_midi_from_memory
          { timing := .metrical 480,
            tracks := [[⟨0, .midi ch (.noteOn k 64)⟩, ⟨0, .midi ch (.noteOn k 0)⟩]] }
          = .ok [{ note := (k : Int), start := 0, duration := 0, velocity := 64,
                   channel := ch, confidence := none }]) := by
  constructor
  · intro tpq st abs ch k v start vel0 rest h
    constructor
    · simp only [processEvent, closeNote, h]
    · simp [processEvent, closeNote, h]
  · intro ch k
    have e0 : (0 + 0) % (2:Nat) ^ 64 = 0 := by norm_num
    have hcoll : collectEvents [[⟨0, .midi ch (.noteOn k 64)⟩, ⟨0, .midi ch (.noteOn k 0)⟩]]
        = [(0, .midi ch (.noteOn k 64)), (0, .midi ch (.noteOn k 0))] := by
      simp only [collectEvents, List.map, List.flatten, collectTrack, List.append_nil]
      rw [e0, e0]
    have hsort : sortEvents [(0, .midi ch (.noteOn k 64)), (0, .midi ch (.noteOn k 0))]
        = [(0, .midi ch (.noteOn k 64)), (0, .midi ch (.noteOn k 0))] :=
      List.Sorted.insertionSort_eq (by simp [List.sorted_cons])
    rw [load_midi_from_memory]
    simp only [hcoll, hsort, runEvents, List.foldl]
    simp [processEvent, advanceClock, initState, insertKey, closeNote, removeKey, sortNotes]

theorem C1_nonneg_witness :
    (0 : ℚ) ≤ ({ note := ((60 : Nat) : Int), start := 0, duration := 0,
                 velocity := ((64 : Nat) : ℚ), channel := 0, confidence := none } : Note).start
    ∧ (0 : ℚ) ≤ ({ note := ((60 : Nat) : Int), start := 0, duration := 0,
                   velocity := ((64 : Nat) : ℚ), channel := 0, confidence := none } : Note).duration :=
  C1_nonneg.2.2
    { timing := .metrical 480,
      tracks := [[⟨0, .midi 0 (.noteOn 60 64)⟩, ⟨0, .midi 0 (.noteOn 60 0)⟩]] }
    [{ note := ((60 : Nat) : Int), start := 0, duration := 0,
       velocity := ((64 : Nat) : ℚ), channel := 0, confidence := none }]
    (by simp [load_midi_from_memory, sortEvents, collectEvents, collectTrack, runEvents,
          processEvent, advanceClock, closeNote, removeKey, insertKey, initState, sortNotes,
          List.insertionSort, List.orderedInsert])
    _ (List.mem_singleton.mpr rfl)

theorem C3_merge_witness :
    (collectTrack 0 [⟨5, .other⟩, ⟨7, .other⟩]).map Prod.fst
      = specRunningTicks 0 [⟨5, .other⟩, ⟨7, .other⟩] :=
  C3_merge_ticks_sorted_stable.1 0 [⟨5, .other⟩, ⟨7, .other⟩] (by norm_num)

theorem C4_output_sorted_witness :
    List.Pairwise (fun a b : Note => a.start ≤ b.start)
      [{ note := ((60 : Nat) : Int), start := 0, duration := 0,
         velocity := ((64 : Nat) : ℚ), channel := 0, confidence := none }] :=
  (C4_output_sorted
    { timing := .metrical 480,
      tracks := [[⟨0, .midi 0 (.noteOn 60 64)⟩, ⟨0, .midi 0 (.noteOn 60 0)⟩]] }
    [{ note := ((60 : Nat) : Int), start := 0, duration := 0,
       velocity := ((64 : Nat) : ℚ), channel := 0, confidence := none }]
    (by simp [load_midi_from_memory, sortEvents, collectEvents, collectTrack, runEvents,
          processEvent, advanceClock, closeNote, removeKey, insertKey, initState, sortNotes,
          List.insertionSort, List.orderedInsert])).1

theorem C5_close_matching_witness :
    processEvent 480 ⟨0, 0, 500000, [((0, 60), (0, 64))], []⟩ (0, .midi 0 (.noteOff 60 7))
      = { advanceClock 480 ⟨0, 0, 500000, [((0, 60), (0, 64))], []⟩ 0 with
          ongoing := [],
          notes := (advanceClock 480 ⟨0, 0, 500000, [((0, 60), (0, 64))], []⟩ 0).notes ++
            [{ note := ((60 : Nat) : Int), start := 0,
               duration := (advanceClock 480 ⟨0, 0, 500000, [((0, 60), (0, 64))], []⟩ 0).seconds - 0,
               velocity := ((64 : Nat) : ℚ), channel := 0, confidence := none }] }
    ∧ processEvent 480 ⟨0, 0, 500000, [((0, 60), (0, 64))], []⟩ (0, .midi 0 (.noteOn 60 0))
      = processEvent 480 ⟨0, 0, 500000, [((0, 60), (0, 64))], []⟩ (0, .midi 0 (.noteOff 60 7)) :=
  C5_close_matching.1 480 ⟨0, 0, 500000, [((0, 60), (0, 64))], []⟩ 0 0 60 7 0 64 [] rfl

theorem C7_retrigger_witness :
    processEvent 480 ⟨0, 0, 500000, [((0, 60), (0, 64))], []⟩ (0, .midi 0 (.noteOn 60 80))
      = { advanceClock 480 ⟨0, 0, 500000, [((0, 60), (0, 64))], []⟩ 0 with
          ongoing := insertKey (0, 60)
            ((advanceClock 480 ⟨0, 0, 500000, [((0, 60), (0, 64))], []⟩ 0).seconds, 80)
            (advanceClock 480 ⟨0, 0, 500000, [((0, 60), (0, 64))], []⟩ 0).ongoing }
    ∧ (processEvent 480 ⟨0, 0, 500000, [((0, 60), (0, 64))], []⟩ (0, .midi 0 (.noteOn 60 80))).notes
        = (advanceClock 480 ⟨0, 0, 500000, [((0, 60), (0, 64))], []⟩ 0).notes
    ∧ lookupKey (0, 60)
        (processEvent 480 ⟨0, 0, 500000, [((0, 60), (0, 64))], []⟩ (0, .midi 0 (.noteOn 60 80))).ongoing
        = some ((advanceClock 480 ⟨0, 0, 500000, [((0, 60), (0, 64))], []⟩ 0).seconds, 80) :=
  C7_retrigger.1 480 ⟨0, 0, 500000, [((0, 60), (0, 64))], []⟩ 0 0 60 80 (by norm_num)

theorem C8_orphan_ignored_witness :
    processEvent 480 ⟨0, 0, 500000, [], []⟩ (0, .midi 0 (.noteOff 60 0))
      = advanceClock 480 ⟨0, 0, 500000, [], []⟩ 0
    ∧ processEvent 480 ⟨0, 0, 500000, [], []⟩ (0, .midi 0 (.noteOn 60 0))
      = advanceClock 480 ⟨0, 0, 500000, [], []⟩ 0
    ∧ processEvent 480 ⟨0, 0, 500000, [], []⟩ (0, .midi 0 (.noteOff 60 0))
      = processEvent 480 ⟨0, 0, 500000, [], []⟩ (0, .other) :=
  C8_orphan_ignored.1 480 ⟨0, 0, 500000, [], []⟩ 0 0 60 0 rfl

theorem C10_velocity_range_witness :
    (1 : ℚ) ≤ ({ note := ((60 : Nat) : Int), start := 0, duration := 0,
                 velocity := ((64 : Nat) : ℚ), channel := 0, confidence := none } : Note).velocity
    ∧ ({ note := ((60 : Nat) : Int), start := 0, duration := 0,
         velocity := ((64 : Nat) : ℚ), channel := 0, confidence := none } : Note).velocity ≤ 127 :=
  C10_velocity_range
    { timing := .metrical 480,
      tracks := [[⟨0, .midi 0 (.noteOn 60 64)⟩, ⟨0, .midi 0 (.noteOn 60 0)⟩]] }
    [{ note := ((60 : Nat) : Int), start := 0, duration := 0,
       velocity := ((64 : Nat) : ℚ), channel := 0, confidence := none }]
    (by intro track ht ev hev
        rcases List.mem_singleton.mp ht with rfl
        simp only [List.mem_cons, List.not_mem_nil, or_false] at hev
        rcases hev with rfl | rfl <;> simp [kindVelValid])
    (by simp [load_midi_from_memory, sortEvents, collectEvents, collectTrack, runEvents,
          processEvent, advanceClock, closeNote, removeKey, insertKey, initState, sortNotes,
          List.insertionSort, List.orderedInsert])
    _ (List.mem_singleton.mpr rfl)

end Klok
